import Mathlib

/-
Verification of the WordEngine core (types.ts + wordEngine.ts).

Shallow embedding notes:
* JS `Math.random()` draws are isolated in an `Rng` record: the root pick is an
  arbitrary natural index (taken mod the filtered list length, matching
  `Math.floor(Math.random()*len)` which always lands in range), the ranking
  scores stand for the draws `Math.pow(Math.random(), 1/word.length)`, and the
  display-letter shuffle comparator stands for `() => Math.random() - 0.5`.
* JS `Array.prototype.sort` (stable) is modelled by `List.insertionSort`,
  which is stable and a permutation for any comparator.
* The sparse `Map<string, ...>` grids keyed by `"x,y"` strings are modelled as
  functions from `Int × Int` (the key format is injective on coordinates).
* A JS runtime error (dereferencing `undefined`) is modelled by `Option`:
  `generateLevel` returns `none` exactly where the source throws.
-/

inductive Dir where
  | horizontal
  | vertical
deriving DecidableEq, Repr

/-- `PlacedWord` from types.ts. -/
structure PlacedWord where
  word : String
  x : Int
  y : Int
  direction : Dir
deriving DecidableEq, Repr

/-- `LevelData` from types.ts; the `foundWords` set starts empty and is
owned by the UI layer. -/
structure LevelData where
  rootLetters : String
  displayLetters : List Char
  validWords : List String
  placedWords : List PlacedWord
  gridWidth : Int
  gridHeight : Int
  foundWords : List String
deriving DecidableEq, Repr

/-- The `WordEngine` instance fields: `clusters` (a JS `Map` in insertion
order), `dictionary` and `dictionarySet`. -/
structure Engine where
  clusters : List (String × List String)
  dictionary : List String
  dictionarySet : List String
deriving DecidableEq, Repr

/-- The random draws consumed by one `generateLevel` call (see header note). -/
structure Rng where
  rootPick : Nat
  scores : Nat → Rat
  charCmp : Char → Char → Bool

/-- JS falsy coalescing `s || d` on strings: the empty string is falsy. -/
def jsOr (s d : String) : String :=
  if s = "" then d else s

/-- `word.split('').sort().join('')`: the signature of a word (JS default sort
on single-character strings is by code unit, i.e. `Char` order). -/
def sig (w : String) : String :=
  String.mk (w.toList.insertionSort (fun a b => a ≤ b))

/-- The per-character counting pass over `bigSorted` in `isSubset`
(`counts[char] = (counts[char] || 0) + 1`). -/
def jsCounts (big : List Char) : Char → Nat :=
  big.foldl (fun f c => fun d => if d = c then f d + 1 else f d) (fun _ => 0)

/-- The decrementing pass over `smallSorted` in `isSubset`
(`if (!counts[char] || counts[char] === 0) return false; counts[char]--`). -/
def isSubsetGo : (Char → Nat) → List Char → Bool
  | _, [] => true
  | cnt, c :: rest =>
      if cnt c = 0 then false
      else isSubsetGo (fun d => if d = c then cnt d - 1 else cnt d) rest

/-- `WordEngine.isSubset(smallSorted, bigSorted)`. -/
def isSubset (small big : String) : Bool :=
  isSubsetGo (jsCounts big.toList) small.toList

/-- `rootWords = dictionary.filter(len = target); if empty, target = 5 and
re-filter` (lines 109–114 of generateLevel). -/
def rootWordsAfterFallback (dict : List String) (targetLength : Nat) : List String :=
  let rootWords := dict.filter (fun w => w.length == targetLength)
  if rootWords.isEmpty then dict.filter (fun w => w.length == 5) else rootWords

/-- `rootWords[Math.floor(Math.random() * rootWords.length)] || "water"`. -/
def chosenRoot (eng : Engine) (rng : Rng) (targetLength : Nat) : String :=
  let rootWords := rootWordsAfterFallback eng.dictionary targetLength
  jsOr (rootWords.getD (rng.rootPick % rootWords.length) "") "water"

/-- The candidate pool: every bucket whose key is a letter-subset of the root
signature contributes all its words (lines 120–125). -/
def computePool (clusters : List (String × List String)) (rootSorted : String) : List String :=
  clusters.foldl (fun pool kv => if isSubset kv.1 rootSorted then pool ++ kv.2 else pool) []

/-- `pool.map(word => {word, score}).sort((a,b) => b.score - a.score).map(p => p.word)`:
the i-th pool word is paired with the i-th score draw and the pairs are
stably sorted by descending score. -/
def rankPool (rng : Rng) (pool : List String) : List String :=
  ((pool.enum.map (fun iw => (iw.2, rng.scores iw.1))).insertionSort
      (fun a b => b.2 ≤ a.2)).map (fun p => p.1)

/-- Cell of index `i` on a run anchored at `(x, y)` along `dir`
(`curX`/`curY` in the source). -/
def cellAtXY (x y : Int) (dir : Dir) (i : Nat) : Int × Int :=
  match dir with
  | Dir.horizontal => (x + i, y)
  | Dir.vertical => (x, y + i)

/-- Cell of index `i` of a placed word. -/
def cellAt (p : PlacedWord) (i : Nat) : Int × Int :=
  cellAtXY p.x p.y p.direction i

/-- Whether a placed word occupies cell `c`. -/
def coversB (p : PlacedWord) (c : Int × Int) : Bool :=
  (List.range p.word.length).any (fun i => cellAt p i == c)

/-- The character a placed word puts at cell `c` (meaningful when it covers `c`). -/
def charAtC (p : PlacedWord) (c : Int × Int) : Char :=
  match p.direction with
  | Dir.horizontal => p.word.toList.getD (c.1 - p.x).toNat ' '
  | Dir.vertical => p.word.toList.getD (c.2 - p.y).toNat ' '

/-- `endX` in the bounding-box pass (line 231). -/
def endX (p : PlacedWord) : Int :=
  match p.direction with
  | Dir.horizontal => p.x + p.word.length - 1
  | Dir.vertical => p.x

/-- `endY` in the bounding-box pass (line 232). -/
def endY (p : PlacedWord) : Int :=
  match p.direction with
  | Dir.horizontal => p.y
  | Dir.vertical => p.y + p.word.length - 1

/-- The mutable state of one generation run: `placed`, `grid`, `cellToWords`. -/
structure GenState where
  placed : List PlacedWord
  grid : Int × Int → Option Char
  cellToWords : Int × Int → List String

inductive NLabel where
  | left
  | right
  | up
  | down
deriving DecidableEq, Repr

/-- One neighbor legality check in `canPlace` (the `for (const adj of adjacents)`
body, lines 160–176). -/
def adjOk (st : GenState) (dir : Dir) (len i : Nat) (isInter : Bool)
    (ax ay : Int) (lab : NLabel) : Bool :=
  match st.grid (ax, ay) with
  | none => true
  | some _ =>
    let isWordFlow :=
      match dir, lab with
      | Dir.horizontal, NLabel.left => true
      | Dir.horizontal, NLabel.right => true
      | Dir.vertical, NLabel.up => true
      | Dir.vertical, NLabel.down => true
      | _, _ => false
    if isWordFlow then
      if i == 0 && lab == NLabel.left then false
      else if i == len - 1 && lab == NLabel.right then false
      else
        match dir with
        | Dir.vertical =>
            if i == 0 && lab == NLabel.up then false
            else if i == len - 1 && lab == NLabel.down then false
            else true
        | Dir.horizontal => true
    else isInter

/-- The per-cell body of `canPlace` (lines 138–177): occupied-cell checks then
the four neighbor checks. -/
def canPlaceCell (st : GenState) (w : List Char) (x y : Int) (dir : Dir)
    (ix iy : Int) (i : Nat) : Bool :=
  let cell := cellAtXY x y dir i
  let ch := w.getD i ' '
  let occupiedOk :=
    match st.grid cell with
    | some existing =>
        existing == ch && decide ((st.cellToWords cell).length < 2)
          && decide (cell = (ix, iy))
    | none => true
  let isInter := decide (cell = (ix, iy))
  occupiedOk
    && adjOk st dir w.length i isInter (cell.1 - 1) cell.2 NLabel.left
    && adjOk st dir w.length i isInter (cell.1 + 1) cell.2 NLabel.right
    && adjOk st dir w.length i isInter cell.1 (cell.2 - 1) NLabel.up
    && adjOk st dir w.length i isInter cell.1 (cell.2 + 1) NLabel.down

/-- `canPlace(word, x, y, dir, intersectionX, intersectionY)`. -/
def canPlace (st : GenState) (w : List Char) (x y : Int) (dir : Dir)
    (ix iy : Int) : Bool :=
  (List.range w.length).all (fun i => canPlaceCell st w x y dir ix iy i)

/-- The cell-writing loop of `place` (lines 183–190): set the grid character
and append the word to the cell's claimant list, left to right. -/
def placeWrites (p : PlacedWord) :
    Nat → List Char → ((Int × Int → Option Char) × (Int × Int → List String)) →
    ((Int × Int → Option Char) × (Int × Int → List String))
  | _, [], acc => acc
  | i, ch :: rest, acc =>
      placeWrites p (i + 1) rest
        (fun c => if c = cellAt p i then some ch else acc.1 c,
         fun c => if c = cellAt p i then acc.2 c ++ [p.word] else acc.2 c)

/-- `place(word, x, y, dir)`. -/
def place (st : GenState) (w : String) (x y : Int) (dir : Dir) : GenState :=
  let p : PlacedWord := { word := w, x := x, y := y, direction := dir }
  let gcw := placeWrites p 0 w.toList (st.grid, st.cellToWords)
  { placed := st.placed ++ [p], grid := gcw.1, cellToWords := gcw.2 }

/-- Candidate crossing geometry derived from placed word `p` at letter pair
`(i, j)` (lines 207–211): perpendicular direction, anchor, intersection. -/
structure Fit where
  x : Int
  y : Int
  dir : Dir
  ix : Int
  iy : Int
deriving DecidableEq, Repr

def mkFit (p : PlacedWord) (i j : Nat) : Fit :=
  match p.direction with
  | Dir.horizontal =>
      { x := p.x + i, y := p.y - j, dir := Dir.vertical, ix := p.x + i, iy := p.y }
  | Dir.vertical =>
      { x := p.x - j, y := p.y + i, dir := Dir.horizontal, ix := p.x, iy := p.y + i }

/-- The innermost step of the crossing search: letter match then `canPlace`. -/
def tryFit (st : GenState) (cand : String) (p : PlacedWord) (i j : Nat) : Option Fit :=
  if p.word.toList.getD i ' ' = cand.toList.getD j ' ' then
    let f := mkFit p i j
    if canPlace st cand.toList f.x f.y f.dir f.ix f.iy then some f else none
  else none

/-- The first-found crossing search over (placed order, i, j) (lines 202–221). -/
def findFit (st : GenState) (cand : String) : Option Fit :=
  st.placed.findSome? (fun p =>
    (List.range p.word.length).findSome? (fun i =>
      (List.range cand.length).findSome? (fun j => tryFit st cand p i j)))

/-- One iteration of the placement while-loop (lines 198–222): pick the cycled
candidate, skip if already placed, else place at the first found fit. -/
def loopStep (wp : List String) (attempts : Nat) (st : GenState) : GenState :=
  let candidate := wp.getD (attempts % wp.length) ""
  if st.placed.any (fun p => p.word == candidate) then st
  else
    match findFit st candidate with
    | some f => place st candidate f.x f.y f.dir
    | none => st

/-- The while-loop `while (placed.length < 12 && attempts < weightedPool.length * 10)`.
The fuel is the remaining attempt budget, so the initial call uses
`weightedPool.length * 10`. -/
def placeLoop (wp : List String) : Nat → Nat → GenState → GenState
  | 0, _, st => st
  | fuel + 1, attempts, st =>
      if st.placed.length < 12 then
        placeLoop wp fuel (attempts + 1) (loopStep wp attempts st)
      else st

/-- `let minX = Infinity` then `minX = Math.min(minX, v)` over a list:
`none` plays Infinity. -/
def foldMinI (l : List Int) : Option Int :=
  l.foldl (fun acc v => match acc with | none => some v | some m => some (min m v)) none

def foldMaxI (l : List Int) : Option Int :=
  l.foldl (fun acc v => match acc with | none => some v | some m => some (max m v)) none

/-- `weightedPool.find(w => w.length === randomRoot.length) || weightedPool[0]`
(line 193). Note `find` returning the empty string is falsy in JS. -/
def firstWordOf (wp : List String) (root : String) : String :=
  jsOr ((wp.find? (fun w => w.length == root.length)).getD "") (wp.getD 0 "")

def st0 : GenState :=
  { placed := [], grid := fun _ => none, cellToWords := fun _ => [] }

/-- Seed placement plus the placement loop (lines 193–223). -/
def runLayout (wp : List String) (root : String) : GenState :=
  placeLoop wp (wp.length * 10) 0 (place st0 (firstWordOf wp root) 0 0 Dir.horizontal)

/-- Bounding box, translation to the origin, display-letter shuffle and the
level record (lines 227–253). -/
def assemble (rng : Rng) (randomRoot : String) (stF : GenState) : LevelData :=
  let minX := (foldMinI (stF.placed.map (fun p => p.x))).getD 0
  let minY := (foldMinI (stF.placed.map (fun p => p.y))).getD 0
  let maxX := (foldMaxI (stF.placed.map endX)).getD 0
  let maxY := (foldMaxI (stF.placed.map endY)).getD 0
  let finalPlaced := stF.placed.map (fun p => { p with x := p.x - minX, y := p.y - minY })
  let displayLetters :=
    (randomRoot.toList.map Char.toUpper).insertionSort (fun a b => rng.charCmp a b = true)
  { rootLetters := sig randomRoot,
    displayLetters := displayLetters,
    validWords := finalPlaced.map (fun p => p.word),
    placedWords := finalPlaced,
    gridWidth := maxX - minX + 1,
    gridHeight := maxY - minY + 1,
    foundWords := [] }

/-- `generateLevel(targetLength)`. Returns `none` exactly when the source
throws: with an empty candidate pool, `firstWord` is `undefined` and
`place(undefined, ...)` dereferences `undefined.length`. -/
def generateLevel (eng : Engine) (rng : Rng) (targetLength : Nat) : Option LevelData :=
  let randomRoot := chosenRoot eng rng targetLength
  let rootSorted := sig randomRoot
  let pool := computePool eng.clusters rootSorted
  let weightedPool := rankPool rng pool
  if weightedPool.isEmpty then none
  else some (assemble rng randomRoot (runLayout weightedPool randomRoot))

/-! ### Initialization: dictionary and clusters (`init`, lines 48–91) -/

def PRIORITY_WORDS : List String :=
  ["nigh", "fain", "yore", "lore", "bard", "sage", "vale", "moor", "vial",
   "helm", "rune", "mead", "thou", "thee", "quoth", "wrought", "blithe",
   "stark", "grim", "vane", "reed"]

def BLACKLIST : List String :=
  ["fran", "brad", "greg", "ebay", "sony", "dell", "nike", "levi", "visa", "ford",
   "fiat", "asda", "audi", "hugo", "marc", "jean", "paul", "ivan", "karl", "erik",
   "http", "html", "www", "com", "org", "blog", "site", "user", "java", "linux",
   "unix", "xml", "json", "wifi", "apps", "tech", "data", "file", "link", "code",
   "ipad", "ipod", "xbox", "psn", "bios", "ping", "pong", "null", "void",
   "july", "june", "sept", "octo", "nov", "dec", "mon", "tue", "wed", "thu", "fri",
   "sat", "sun"]

def FALLBACK_WORDS : List String :=
  ["rust", "trust", "star", "stair", "trail", "train", "react", "trace", "cater",
   "crate", "great", "gear", "read", "dear", "care", "race", "word", "flow", "wolf",
   "blue", "glow", "slow", "fast", "lake", "peak", "beam", "team", "nigh", "lore",
   "bard", "sage"]

def isLowerAlpha (c : Char) : Bool :=
  decide ('a' ≤ c) && decide (c ≤ 'z')

def isVowelY (c : Char) : Bool :=
  c == 'a' || c == 'e' || c == 'i' || c == 'o' || c == 'u' || c == 'y'

/-- The word filter of `init` (lines 60–65): length in [4,7], `^[a-z]+$`,
contains a vowel-like character, not blacklisted. -/
def dictFilter (w : String) : Bool :=
  (4 ≤ w.length && w.length ≤ 7) && (!w.toList.isEmpty && w.toList.all isLowerAlpha)
    && w.toList.any isVowelY && !(BLACKLIST.contains w)

/-- `[...new Set([...])]`: deduplication keeping first occurrences. -/
def jsDedup (l : List String) : List String :=
  l.foldl (fun acc w => if acc.contains w then acc else acc ++ [w]) []

def mapHas (m : List (String × List String)) (k : String) : Bool :=
  m.any (fun kv => kv.1 == k)

def mapPush : List (String × List String) → String → String → List (String × List String)
  | [], _, _ => []
  | kv :: rest, k, w =>
      if kv.1 = k then (kv.1, kv.2 ++ [w]) :: rest else kv :: mapPush rest k w

/-- The cluster-building step (lines 74–77 and 86–88):
`if (!clusters.has(sorted)) clusters.set(sorted, []); clusters.get(sorted)!.push(word)`. -/
def clusterAdd (m : List (String × List String)) (w : String) :
    List (String × List String) :=
  let sorted := sig w
  let m1 := if mapHas m sorted then m else m ++ [(sorted, [])]
  mapPush m1 sorted w

def freshEngine : Engine :=
  { clusters := [], dictionary := [], dictionarySet := [] }

/-- `init()`: `fetchResult` is `some lines` when the fetch succeeds (split on
newlines) and `none` when it throws. On success the clusters map is cleared
and rebuilt; on the fallback path it is NOT cleared — the fallback words are
pushed into whatever buckets already exist. -/
def initEngine (eng : Engine) (fetchResult : Option (List String)) : Engine :=
  match fetchResult with
  | some lines =>
      let fetchedWords := (lines.map (fun w => w.trim.toLower)).filter dictFilter
      let combined := jsDedup (fetchedWords ++ PRIORITY_WORDS)
      { clusters := combined.foldl clusterAdd [],
        dictionary := combined,
        dictionarySet := jsDedup combined }
  | none =>
      { clusters := FALLBACK_WORDS.foldl clusterAdd eng.clusters,
        dictionary := FALLBACK_WORDS,
        dictionarySet := jsDedup FALLBACK_WORDS }

/-- `isValidWord(word)`. -/
def isValidWord (eng : Engine) (w : String) : Bool :=
  eng.dictionarySet.contains w.toLower

/-- Total number of occurrences of `w` across all cluster buckets. -/
def bucketOccOf (m : List (String × List String)) (w : String) : Nat :=
  (m.map (fun kv => kv.2.count w)).sum

def bucketOcc (eng : Engine) (w : String) : Nat :=
  bucketOccOf eng.clusters w

/-- Every dictionary word sits in exactly one bucket, exactly once, and any
bucket holding it is keyed by its signature. -/
def ClusterExactlyOnce (eng : Engine) : Prop :=
  ∀ w ∈ eng.dictionary,
    bucketOcc eng w = 1 ∧ ∀ kv ∈ eng.clusters, w ∈ kv.2 → kv.1 = sig w


/-- The words claiming cell `c`, in placement order. -/
def coveredBy (st : GenState) (c : Int × Int) : List PlacedWord :=
  st.placed.filter (fun p => coversB p c)

/-- Invariant of the layout state: the grid records each placed word's
characters, the claimant lists mirror coverage, at most two words share a
cell, and sharing words cross perpendicular with matching characters. -/
structure LoopInv (st : GenState) : Prop where
  nodup : (st.placed.map (fun p => p.word)).Nodup
  gchar : ∀ p ∈ st.placed, ∀ i, i < p.word.length →
    st.grid (cellAt p i) = some (p.word.toList.getD i ' ')
  gdom : ∀ c, (st.grid c).isSome = true ↔ ∃ p ∈ st.placed, coversB p c = true
  cw : ∀ c, st.cellToWords c = (coveredBy st c).map (fun p => p.word)
  two : ∀ c, (coveredBy st c).length ≤ 2
  cross : ∀ p ∈ st.placed, ∀ q ∈ st.placed, p ≠ q → ∀ c, coversB p c = true →
    coversB q c = true → p.direction ≠ q.direction ∧ charAtC p c = charAtC q c

def keysOk (m : List (String × List String)) : Prop :=
  ∀ kv ∈ m, ∀ w ∈ kv.2, kv.1 = sig w

/-! ### Concrete instances used by witnesses -/

def engC : Engine :=
  { clusters := [("arst", ["star", "rats"])],
    dictionary := ["star", "rats"],
    dictionarySet := ["star", "rats"] }

def rngC : Rng := { rootPick := 0, scores := fun _ => 0, charCmp := fun _ _ => false }

def engM : Engine :=
  { clusters := [("iimnno", ["minion"])],
    dictionary := ["minion"],
    dictionarySet := ["minion"] }

def ldDefault : LevelData :=
  { rootLetters := "", displayLetters := [], validWords := [], placedWords := [],
    gridWidth := 0, gridHeight := 0, foundWords := [] }

def ldC : LevelData := (generateLevel engC rngC 4).getD ldDefault

def stTwelve : GenState :=
  { placed := List.replicate 12 ⟨"a", 0, 0, Dir.horizontal⟩,
    grid := fun _ => none, cellToWords := fun _ => [] }

/-! ### Character counting: `isSubset` is multiset containment -/

theorem jsCounts_go (l : List Char) (f : Char → Nat) (c : Char) :
    (l.foldl (fun f c => fun d => if d = c then f d + 1 else f d) f) c = f c + l.count c := by
  induction l generalizing f with
  | nil => simp
  | cons a rest ih =>
      simp only [List.foldl_cons, ih, List.count_cons]
      by_cases h : c = a
      · subst h; simp; omega
      · simp [h, Ne.symm h]

theorem jsCounts_apply (big : List Char) (c : Char) : jsCounts big c = big.count c := by
  unfold jsCounts
  rw [jsCounts_go]
  omega

theorem isSubsetGo_iff (small : List Char) : ∀ cnt : Char → Nat,
    isSubsetGo cnt small = true ↔ ∀ c, small.count c ≤ cnt c := by
  induction small with
  | nil => intro cnt; simp [isSubsetGo]
  | cons c rest ih =>
      intro cnt
      simp only [isSubsetGo]
      by_cases h0 : cnt c = 0
      · rw [if_pos h0]
        simp only [Bool.false_eq_true, false_iff, not_forall]
        refine ⟨c, ?_⟩
        rw [List.count_cons_self]
        omega
      · rw [if_neg h0, ih]
        constructor
        · intro h d
          have hd := h d
          by_cases hdc : d = c
          · subst hdc
            rw [if_pos rfl] at hd
            rw [List.count_cons_self]
            omega
          · rw [if_neg hdc] at hd
            rw [List.count_cons_of_ne hdc]
            exact hd
        · intro h d
          have hd := h d
          by_cases hdc : d = c
          · subst hdc
            rw [List.count_cons_self] at hd
            rw [if_pos rfl]
            omega
          · rw [List.count_cons_of_ne hdc] at hd
            rw [if_neg hdc]
            exact hd

theorem isSubset_iff_counts (small big : String) :
    isSubset small big = true ↔ ∀ c : Char, small.toList.count c ≤ big.toList.count c := by
  unfold isSubset
  rw [isSubsetGo_iff]
  constructor
  · intro h c
    have := h c
    rwa [jsCounts_apply] at this
  · intro h c
    rw [jsCounts_apply]
    exact h c

/-! ### Geometry basics -/

theorem string_length_toList (s : String) : s.length = s.toList.length := rfl

theorem sig_toList (w : String) :
    (sig w).toList = w.toList.insertionSort (fun a b => a ≤ b) := rfl

theorem sig_perm (w : String) : (sig w).toList.Perm w.toList :=
  List.perm_insertionSort _ _

theorem cellAt_inj (p : PlacedWord) (a b : Nat) (h : cellAt p a = cellAt p b) : a = b := by
  obtain ⟨w, x, y, d⟩ := p
  cases d <;> simp only [cellAt, cellAtXY, Prod.mk.injEq] at h <;> omega

theorem charAtC_cellAt (p : PlacedWord) (i : Nat) :
    charAtC p (cellAt p i) = p.word.toList.getD i ' ' := by
  unfold charAtC cellAt cellAtXY
  cases p.direction
  · have h : p.x + (i : Int) - p.x = (i : Int) := by omega
    simp [h]
  · have h : p.y + (i : Int) - p.y = (i : Int) := by omega
    simp [h]

theorem coversB_iff (p : PlacedWord) (c : Int × Int) :
    coversB p c = true ↔ ∃ i, i < p.word.length ∧ cellAt p i = c := by
  simp [coversB, List.any_eq_true, List.mem_range, beq_iff_eq]

theorem coversB_cellAt (p : PlacedWord) (i : Nat) (hi : i < p.word.length) :
    coversB p (cellAt p i) = true :=
  (coversB_iff p _).mpr ⟨i, hi, rfl⟩

/-! ### Effect of `place` on the grid state -/

theorem placeWrites_ne (p : PlacedWord) (l : List Char) (i : Nat)
    (acc : (Int × Int → Option Char) × (Int × Int → List String)) (c : Int × Int)
    (h : ∀ k, k < l.length → cellAt p (i + k) ≠ c) :
    (placeWrites p i l acc).1 c = acc.1 c ∧ (placeWrites p i l acc).2 c = acc.2 c := by
  induction l generalizing i acc with
  | nil => exact ⟨rfl, rfl⟩
  | cons ch rest ih =>
      have h0 : cellAt p i ≠ c := by
        have := h 0 (by simp)
        simpa using this
      have hrest : ∀ k, k < rest.length → cellAt p (i + 1 + k) ≠ c := by
        intro k hk
        have h1 := h (k + 1) (by simpa using hk)
        have he : i + (k + 1) = i + 1 + k := by omega
        rwa [he] at h1
      obtain ⟨h1, h2⟩ := ih (i + 1)
        (fun c2 => if c2 = cellAt p i then some ch else acc.1 c2,
         fun c2 => if c2 = cellAt p i then acc.2 c2 ++ [p.word] else acc.2 c2) hrest
      constructor
      · simp only [placeWrites, h1]
        exact if_neg (fun hc => h0 hc.symm)
      · simp only [placeWrites, h2]
        exact if_neg (fun hc => h0 hc.symm)

theorem placeWrites_at (p : PlacedWord) (l : List Char) (i k : Nat)
    (acc : (Int × Int → Option Char) × (Int × Int → List String)) (hk : k < l.length) :
    (placeWrites p i l acc).1 (cellAt p (i + k)) = some (l.getD k ' ') ∧
    (placeWrites p i l acc).2 (cellAt p (i + k)) =
      acc.2 (cellAt p (i + k)) ++ [p.word] := by
  induction l generalizing i k acc with
  | nil => simp at hk
  | cons ch rest ih =>
      cases k with
      | zero =>
          have hne : ∀ m, m < rest.length → cellAt p (i + 1 + m) ≠ cellAt p (i + 0) := by
            intro m hm heq
            have := cellAt_inj p _ _ heq
            omega
          obtain ⟨h1, h2⟩ := placeWrites_ne p rest (i + 1)
            (fun c2 => if c2 = cellAt p i then some ch else acc.1 c2,
             fun c2 => if c2 = cellAt p i then acc.2 c2 ++ [p.word] else acc.2 c2)
            (cellAt p (i + 0)) hne
          constructor
          · simp only [placeWrites, h1]
            simp
          · simp only [placeWrites, h2]
            simp
      | succ m =>
          have hidx : i + (m + 1) = (i + 1) + m := by omega
          have hm : m < rest.length := by simpa using hk
          obtain ⟨h1, h2⟩ := ih (i + 1) m
            (fun c2 => if c2 = cellAt p i then some ch else acc.1 c2,
             fun c2 => if c2 = cellAt p i then acc.2 c2 ++ [p.word] else acc.2 c2) hm
          have hcell : cellAt p ((i + 1) + m) ≠ cellAt p i := by
            intro heq
            have := cellAt_inj p _ _ heq
            omega
          constructor
          · rw [hidx]
            simp only [placeWrites, h1]
            simp
          · rw [hidx]
            simp only [placeWrites, h2]
            rw [if_neg hcell]

theorem place_placed (st : GenState) (w : String) (x y : Int) (dir : Dir) :
    (place st w x y dir).placed = st.placed ++ [⟨w, x, y, dir⟩] := rfl

theorem place_not_covered (st : GenState) (w : String) (x y : Int) (dir : Dir)
    (c : Int × Int) (h : ∀ k, k < w.length → cellAt ⟨w, x, y, dir⟩ k ≠ c) :
    (place st w x y dir).grid c = st.grid c ∧
    (place st w x y dir).cellToWords c = st.cellToWords c := by
  unfold place
  refine placeWrites_ne _ _ 0 _ c ?_
  intro k hk
  have := h k hk
  simpa using this

theorem place_covered (st : GenState) (w : String) (x y : Int) (dir : Dir)
    (k : Nat) (hk : k < w.length) :
    (place st w x y dir).grid (cellAt ⟨w, x, y, dir⟩ k) = some (w.toList.getD k ' ') ∧
    (place st w x y dir).cellToWords (cellAt ⟨w, x, y, dir⟩ k) =
      st.cellToWords (cellAt ⟨w, x, y, dir⟩ k) ++ [w] := by
  unfold place
  have := placeWrites_at ⟨w, x, y, dir⟩ w.toList 0 k (st.grid, st.cellToWords) hk
  simpa using this

/-! ### What a successful `canPlace` guarantees at occupied cells -/

theorem canPlace_occ (st : GenState) (w : List Char) (x y : Int) (dir : Dir)
    (ix iy : Int) (h : canPlace st w x y dir ix iy = true) (k : Nat)
    (hk : k < w.length) (ch : Char) (hocc : st.grid (cellAtXY x y dir k) = some ch) :
    ch = w.getD k ' ' ∧ (st.cellToWords (cellAtXY x y dir k)).length < 2 ∧
      cellAtXY x y dir k = (ix, iy) := by
  have hcell : canPlaceCell st w x y dir ix iy k = true := by
    have hall := List.all_eq_true.mp h
    exact hall k (List.mem_range.mpr hk)
  simp only [canPlaceCell] at hcell
  rw [hocc] at hcell
  simp only [Bool.and_eq_true, beq_iff_eq, decide_eq_true_eq] at hcell
  exact ⟨hcell.1.1.1.1.1.1, hcell.1.1.1.1.1.2, hcell.1.1.1.1.2⟩

/-! ### Geometry of `mkFit` -/

theorem mkFit_dir (p : PlacedWord) (i j : Nat) :
    (mkFit p i j).dir ≠ p.direction := by
  unfold mkFit
  cases p.direction <;> simp

theorem mkFit_inter_on_p (p : PlacedWord) (i j : Nat) :
    cellAt p i = ((mkFit p i j).ix, (mkFit p i j).iy) := by
  unfold mkFit cellAt cellAtXY
  cases p.direction <;> simp

theorem mkFit_inter_on_new (p : PlacedWord) (i j : Nat) (w : String) :
    cellAt ⟨w, (mkFit p i j).x, (mkFit p i j).y, (mkFit p i j).dir⟩ j =
      ((mkFit p i j).ix, (mkFit p i j).iy) := by
  unfold mkFit cellAt cellAtXY
  cases p.direction <;> simp

/-! ### Inversion of the crossing search -/

theorem tryFit_some (st : GenState) (cand : String) (p : PlacedWord) (i j : Nat)
    (f : Fit) (h : tryFit st cand p i j = some f) :
    p.word.toList.getD i ' ' = cand.toList.getD j ' ' ∧ f = mkFit p i j ∧
      canPlace st cand.toList f.x f.y f.dir f.ix f.iy = true := by
  unfold tryFit at h
  by_cases hch : p.word.toList.getD i ' ' = cand.toList.getD j ' '
  · rw [if_pos hch] at h
    by_cases hcp : canPlace st cand.toList (mkFit p i j).x (mkFit p i j).y
        (mkFit p i j).dir (mkFit p i j).ix (mkFit p i j).iy = true
    · rw [if_pos hcp] at h
      have hf : f = mkFit p i j := by
        injection h with h1
        exact h1.symm
      subst hf
      exact ⟨hch, rfl, hcp⟩
    · rw [if_neg hcp] at h
      exact absurd h (by simp)
  · rw [if_neg hch] at h
    exact absurd h (by simp)

theorem findFit_some (st : GenState) (cand : String) (f : Fit)
    (h : findFit st cand = some f) :
    ∃ p ∈ st.placed, ∃ i, i < p.word.length ∧ ∃ j, j < cand.length ∧
      p.word.toList.getD i ' ' = cand.toList.getD j ' ' ∧ f = mkFit p i j ∧
      canPlace st cand.toList f.x f.y f.dir f.ix f.iy = true := by
  unfold findFit at h
  obtain ⟨p, hp, hp2⟩ := List.exists_of_findSome?_eq_some h
  obtain ⟨i, hi, hi2⟩ := List.exists_of_findSome?_eq_some hp2
  obtain ⟨j, hj, hj2⟩ := List.exists_of_findSome?_eq_some hi2
  obtain ⟨hch, hf, hcp⟩ := tryFit_some st cand p i j f hj2
  exact ⟨p, hp, i, List.mem_range.mp hi, j, List.mem_range.mp hj, hch, hf, hcp⟩

/-! ### The layout invariant -/

theorem two_le_filter_length {α : Type} [DecidableEq α] (l : List α)
    (p q : α) (hp : p ∈ l) (hq : q ∈ l) (hpq : p ≠ q) (f : α → Bool)
    (fp : f p = true) (fq : f q = true) : 2 ≤ (l.filter f).length := by
  have hsub : [p, q] ⊆ l.filter f := by
    intro a ha
    simp only [List.mem_cons, List.mem_singleton, List.not_mem_nil, or_false] at ha
    rcases ha with rfl | rfl
    · exact List.mem_filter.mpr ⟨hp, fp⟩
    · exact List.mem_filter.mpr ⟨hq, fq⟩
  have hnd2 : List.Nodup [p, q] := by simp [hpq]
  have := (List.subperm_of_subset hnd2 hsub).length_le
  simpa using this

theorem mem_of_card_two {α : Type} [DecidableEq α] (l : List α) (hlen : l.length ≤ 2)
    (p q r : α) (hp : p ∈ l) (hq : q ∈ l) (hr : r ∈ l) (hpq : p ≠ q) :
    r = p ∨ r = q := by
  by_contra hc
  push_neg at hc
  have h1 : p ≠ r := fun h => hc.1 h.symm
  have h2 : q ≠ r := fun h => hc.2 h.symm
  have hsub : [p, q, r] ⊆ l := by
    intro a ha
    simp only [List.mem_cons, List.mem_singleton, List.not_mem_nil, or_false] at ha
    rcases ha with rfl | rfl | rfl <;> assumption
  have hnd3 : List.Nodup [p, q, r] := by simp [hpq, h1, h2]
  have := (List.subperm_of_subset hnd3 hsub).length_le
  simp at this
  omega

theorem coveredBy_place (st : GenState) (w : String) (x y : Int) (dir : Dir)
    (c : Int × Int) :
    coveredBy (place st w x y dir) c =
      coveredBy st c ++
        (if coversB ⟨w, x, y, dir⟩ c = true then [(⟨w, x, y, dir⟩ : PlacedWord)] else []) := by
  unfold coveredBy
  rw [place_placed, List.filter_append]
  congr 1
  by_cases h : coversB ⟨w, x, y, dir⟩ c = true <;> simp [h]

/-- Core preservation: a placement produced by the crossing search and
validated by `canPlace` preserves the layout invariant. -/
theorem place_inv (st : GenState) (cand : String) (p : PlacedWord) (i j : Nat) (f : Fit)
    (hf : f = mkFit p i j) (hInv : LoopInv st) (hp : p ∈ st.placed)
    (hi : i < p.word.length) (hj : j < cand.length)
    (hch : p.word.toList.getD i ' ' = cand.toList.getD j ' ')
    (hnew : cand ∉ st.placed.map (fun q => q.word))
    (hcan : canPlace st cand.toList f.x f.y f.dir f.ix f.iy = true) :
    LoopInv (place st cand f.x f.y f.dir) := by
  have hdirne : f.dir ≠ p.direction := by rw [hf]; exact mkFit_dir p i j
  have hinterp : cellAt p i = (f.ix, f.iy) := by rw [hf]; exact mkFit_inter_on_p p i j
  have hinternew : cellAt ⟨cand, f.x, f.y, f.dir⟩ j = (f.ix, f.iy) := by
    rw [hf]; exact mkFit_inter_on_new p i j cand
  have at_inter : ∀ c, coversB ⟨cand, f.x, f.y, f.dir⟩ c = true →
      ∀ q, q ∈ st.placed → coversB q c = true →
      q = p ∧ c = (f.ix, f.iy) ∧ (coveredBy st c).length < 2 := by
    intro c hc q hq hqc
    obtain ⟨k, hk, hck⟩ := (coversB_iff _ _).mp hc
    have hso : (st.grid c).isSome = true := (hInv.gdom c).mpr ⟨q, hq, hqc⟩
    obtain ⟨ch0, hch0⟩ := Option.isSome_iff_exists.mp hso
    have hocc2 : st.grid (cellAt ⟨cand, f.x, f.y, f.dir⟩ k) = some ch0 := by
      rw [hck]; exact hch0
    obtain ⟨hce, hlt, hcix⟩ :=
      canPlace_occ st cand.toList f.x f.y f.dir f.ix f.iy hcan k hk ch0 hocc2
    have hc_eq : c = (f.ix, f.iy) := by rw [← hck]; exact hcix
    have hlt2 : (coveredBy st c).length < 2 := by
      have hl : (st.cellToWords c).length < 2 := by
        have hl0 : (st.cellToWords (cellAt ⟨cand, f.x, f.y, f.dir⟩ k)).length < 2 := hlt
        rwa [hck] at hl0
      rw [hInv.cw c] at hl
      simpa using hl
    have hpc : coversB p c = true := by
      rw [hc_eq, ← hinterp]
      exact coversB_cellAt p i hi
    by_cases hqp : q = p
    · exact ⟨hqp, hc_eq, hlt2⟩
    · exfalso
      have h2 : 2 ≤ (coveredBy st c).length :=
        two_le_filter_length st.placed p q hp hq (Ne.symm hqp) _ hpc hqc
      omega
  have hplace_nc : ∀ c, ¬ (coversB ⟨cand, f.x, f.y, f.dir⟩ c = true) →
      (place st cand f.x f.y f.dir).grid c = st.grid c ∧
      (place st cand f.x f.y f.dir).cellToWords c = st.cellToWords c := by
    intro c hc
    refine place_not_covered st cand f.x f.y f.dir c ?_
    intro k hk heq
    exact hc (by rw [← heq]; exact coversB_cellAt _ k hk)
  refine ⟨?_, ?_, ?_, ?_, ?_, ?_⟩
  · rw [place_placed, List.map_append]
    simp only [List.map_cons, List.map_nil]
    rw [(List.perm_append_singleton _ _).nodup_iff]
    exact List.nodup_cons.mpr ⟨hnew, hInv.nodup⟩
  · intro q hq k hk
    rw [place_placed] at hq
    rcases List.mem_append.mp hq with hq | hq
    · by_cases hcov : coversB ⟨cand, f.x, f.y, f.dir⟩ (cellAt q k) = true
      · obtain ⟨m, hm, hmc⟩ := (coversB_iff _ _).mp hcov
        have hold := hInv.gchar q hq k hk
        have hocc2 : st.grid (cellAt ⟨cand, f.x, f.y, f.dir⟩ m) =
            some (q.word.toList.getD k ' ') := by
          rw [hmc]; exact hold
        obtain ⟨hce, h2, h3⟩ :=
          canPlace_occ st cand.toList f.x f.y f.dir f.ix f.iy hcan m hm _ hocc2
        have hg := (place_covered st cand f.x f.y f.dir m hm).1
        rw [hmc] at hg
        rw [hg, ← hce]
      · rw [(hplace_nc (cellAt q k) hcov).1]
        exact hInv.gchar q hq k hk
    · rw [List.mem_singleton] at hq
      subst hq
      exact (place_covered st cand f.x f.y f.dir k hk).1
  · intro c
    by_cases hcov : coversB ⟨cand, f.x, f.y, f.dir⟩ c = true
    · obtain ⟨m, hm, hmc⟩ := (coversB_iff _ _).mp hcov
      have hg := (place_covered st cand f.x f.y f.dir m hm).1
      rw [hmc] at hg
      constructor
      · intro _
        refine ⟨⟨cand, f.x, f.y, f.dir⟩, ?_, hcov⟩
        rw [place_placed]
        exact List.mem_append_right _ (List.mem_singleton.mpr rfl)
      · intro _
        rw [hg]
        rfl
    · rw [(hplace_nc c hcov).1, hInv.gdom c]
      constructor
      · rintro ⟨q, hq, hqc⟩
        refine ⟨q, ?_, hqc⟩
        rw [place_placed]
        exact List.mem_append_left _ hq
      · rintro ⟨q, hq, hqc⟩
        rw [place_placed] at hq
        rcases List.mem_append.mp hq with hq | hq
        · exact ⟨q, hq, hqc⟩
        · rw [List.mem_singleton] at hq
          subst hq
          exact absurd hqc hcov
  · intro c
    rw [coveredBy_place]
    by_cases hcov : coversB ⟨cand, f.x, f.y, f.dir⟩ c = true
    · rw [if_pos hcov, List.map_append]
      obtain ⟨m, hm, hmc⟩ := (coversB_iff _ _).mp hcov
      have hg := (place_covered st cand f.x f.y f.dir m hm).2
      rw [hmc] at hg
      rw [hg, hInv.cw c]
      simp
    · rw [if_neg hcov, (hplace_nc c hcov).2, hInv.cw c]
      simp
  · intro c
    rw [coveredBy_place]
    by_cases hcov : coversB ⟨cand, f.x, f.y, f.dir⟩ c = true
    · rw [if_pos hcov, List.length_append]
      by_cases hex : ∃ q ∈ st.placed, coversB q c = true
      · obtain ⟨q, hq, hqc⟩ := hex
        have := (at_inter c hcov q hq hqc).2.2
        simp only [List.length_singleton]
        omega
      · have hnil : coveredBy st c = [] := by
          unfold coveredBy
          rw [List.filter_eq_nil_iff]
          intro q hq hqc
          exact hex ⟨q, hq, hqc⟩
        rw [hnil]
        simp
    · rw [if_neg hcov]
      simp only [List.append_nil]
      exact hInv.two c
  · intro q1 hq1 q2 hq2 hne c hc1 hc2
    rw [place_placed] at hq1 hq2
    have mixed : ∀ q, q ∈ st.placed → coversB q c = true →
        coversB ⟨cand, f.x, f.y, f.dir⟩ c = true →
        q.direction ≠ (⟨cand, f.x, f.y, f.dir⟩ : PlacedWord).direction ∧
        charAtC q c = charAtC ⟨cand, f.x, f.y, f.dir⟩ c := by
      intro q hq hqc hnc
      obtain ⟨hqp, hceq, h2c⟩ := at_inter c hnc q hq hqc
      subst hqp
      constructor
      · intro h
        exact hdirne h.symm
      · have e1 : charAtC q c = q.word.toList.getD i ' ' := by
          rw [hceq, ← hinterp]
          exact charAtC_cellAt q i
        have e2 : charAtC ⟨cand, f.x, f.y, f.dir⟩ c = cand.toList.getD j ' ' := by
          rw [hceq, ← hinternew]
          exact charAtC_cellAt ⟨cand, f.x, f.y, f.dir⟩ j
        rw [e1, e2]
        exact hch
    rcases List.mem_append.mp hq1 with h1 | h1 <;>
      rcases List.mem_append.mp hq2 with h2 | h2
    · exact hInv.cross q1 h1 q2 h2 hne c hc1 hc2
    · rw [List.mem_singleton] at h2
      subst h2
      exact mixed q1 h1 hc1 hc2
    · rw [List.mem_singleton] at h1
      subst h1
      obtain ⟨hd, hcq⟩ := mixed q2 h2 hc2 hc1
      exact ⟨fun hh => hd hh.symm, hcq.symm⟩
    · rw [List.mem_singleton] at h1
      rw [List.mem_singleton] at h2
      subst h1
      subst h2
      exact absurd rfl hne

/-- The seed placement into the empty state satisfies the invariant. -/
theorem inv_seed (w : String) : LoopInv (place st0 w 0 0 Dir.horizontal) := by
  have hpl : (place st0 w 0 0 Dir.horizontal).placed = [⟨w, 0, 0, Dir.horizontal⟩] :=
    place_placed st0 w 0 0 Dir.horizontal
  have hnc : ∀ c, ¬ (coversB ⟨w, 0, 0, Dir.horizontal⟩ c = true) →
      (place st0 w 0 0 Dir.horizontal).grid c = none ∧
      (place st0 w 0 0 Dir.horizontal).cellToWords c = [] := by
    intro c hc
    refine place_not_covered st0 w 0 0 Dir.horizontal c ?_
    intro k hk heq
    exact hc (by rw [← heq]; exact coversB_cellAt _ k hk)
  refine ⟨?_, ?_, ?_, ?_, ?_, ?_⟩
  · rw [hpl]
    simp
  · intro q hq k hk
    rw [hpl, List.mem_singleton] at hq
    subst hq
    exact (place_covered st0 w 0 0 Dir.horizontal k hk).1
  · intro c
    rw [hpl]
    by_cases hcov : coversB ⟨w, 0, 0, Dir.horizontal⟩ c = true
    · obtain ⟨m, hm, hmc⟩ := (coversB_iff _ _).mp hcov
      have hg := (place_covered st0 w 0 0 Dir.horizontal m hm).1
      rw [hmc] at hg
      constructor
      · intro _
        exact ⟨⟨w, 0, 0, Dir.horizontal⟩, List.mem_singleton.mpr rfl, hcov⟩
      · intro _
        rw [hg]
        rfl
    · rw [(hnc c hcov).1]
      constructor
      · intro h
        exact absurd h (by simp)
      · rintro ⟨q, hq, hqc⟩
        rw [List.mem_singleton] at hq
        subst hq
        exact absurd hqc hcov
  · intro c
    rw [coveredBy_place]
    by_cases hcov : coversB ⟨w, 0, 0, Dir.horizontal⟩ c = true
    · rw [if_pos hcov]
      obtain ⟨m, hm, hmc⟩ := (coversB_iff _ _).mp hcov
      have hg := (place_covered st0 w 0 0 Dir.horizontal m hm).2
      rw [hmc] at hg
      rw [hg]
      have hb : coveredBy st0 c = [] := rfl
      rw [hb]
      simp [st0]
    · rw [if_neg hcov, (hnc c hcov).2]
      have hb : coveredBy st0 c = [] := rfl
      rw [hb]
      simp
  · intro c
    rw [coveredBy_place]
    have hb : coveredBy st0 c = [] := rfl
    rw [hb]
    by_cases hcov : coversB ⟨w, 0, 0, Dir.horizontal⟩ c = true
    · rw [if_pos hcov]
      simp
    · rw [if_neg hcov]
      simp
  · intro q1 hq1 q2 hq2 hne c hc1 hc2
    rw [hpl, List.mem_singleton] at hq1 hq2
    subst hq1
    subst hq2
    exact absurd rfl hne

/-- Every word a loop step may add comes from the pool, and the placed list
only grows by appending. -/
theorem loopStep_placed (wp : List String) (a : Nat) (st : GenState) :
    loopStep wp a st = st ∨
    ∃ f : Fit, findFit st (wp.getD (a % wp.length) "") = some f ∧
      (¬ ∃ q ∈ st.placed, q.word = wp.getD (a % wp.length) "") ∧
      loopStep wp a st =
        place st (wp.getD (a % wp.length) "") f.x f.y f.dir := by
  unfold loopStep
  by_cases hskip : st.placed.any (fun p => p.word == wp.getD (a % wp.length) "") = true
  · rw [if_pos hskip]
    exact Or.inl rfl
  · rw [if_neg hskip]
    cases hff : findFit st (wp.getD (a % wp.length) "") with
    | none => exact Or.inl rfl
    | some f =>
        refine Or.inr ⟨f, rfl, ?_, rfl⟩
        intro ⟨q, hq, hqw⟩
        exact hskip (List.any_eq_true.mpr ⟨q, hq, by simp [hqw]⟩)

theorem getD_mod_mem (wp : List String) (hwp : wp ≠ []) (k : Nat) :
    wp.getD (k % wp.length) "" ∈ wp := by
  have hlen : 0 < wp.length := List.length_pos.mpr hwp
  have hk : k % wp.length < wp.length := Nat.mod_lt _ hlen
  rw [List.getD_eq_getElem?_getD, List.getElem?_eq_getElem hk]
  simp

theorem loopStep_inv (wp : List String) (hwp : wp ≠ []) (a : Nat) (st : GenState)
    (hInv : LoopInv st) (hmem : ∀ p ∈ st.placed, p.word ∈ wp) :
    LoopInv (loopStep wp a st) ∧ (∀ p ∈ (loopStep wp a st).placed, p.word ∈ wp) := by
  rcases loopStep_placed wp a st with h | ⟨f, hff, hnew, h⟩
  · rw [h]; exact ⟨hInv, hmem⟩
  · rw [h]
    obtain ⟨p, hp, i, hi, j, hj, hch, hfm, hcan⟩ := findFit_some st _ f hff
    have hnew2 : wp.getD (a % wp.length) "" ∉ st.placed.map (fun q => q.word) := by
      intro hmem2
      obtain ⟨q, hq, hqw⟩ := List.mem_map.mp hmem2
      exact hnew ⟨q, hq, hqw⟩
    constructor
    · exact place_inv st _ p i j f hfm hInv hp hi hj hch hnew2 hcan
    · intro q hq
      rw [place_placed] at hq
      rcases List.mem_append.mp hq with hq | hq
      · exact hmem q hq
      · rw [List.mem_singleton] at hq
        subst hq
        exact getD_mod_mem wp hwp a

theorem placeLoop_inv (wp : List String) (hwp : wp ≠ []) (fuel a : Nat) (st : GenState)
    (hInv : LoopInv st) (hmem : ∀ p ∈ st.placed, p.word ∈ wp) :
    LoopInv (placeLoop wp fuel a st) ∧
      ∀ p ∈ (placeLoop wp fuel a st).placed, p.word ∈ wp := by
  induction fuel generalizing a st with
  | zero => exact ⟨hInv, hmem⟩
  | succ n ih =>
      unfold placeLoop
      by_cases hlt : st.placed.length < 12
      · rw [if_pos hlt]
        obtain ⟨h1, h2⟩ := loopStep_inv wp hwp a st hInv hmem
        exact ih (a + 1) _ h1 h2
      · rw [if_neg hlt]
        exact ⟨hInv, hmem⟩

theorem loopStep_length (wp : List String) (a : Nat) (st : GenState) :
    st.placed.length ≤ (loopStep wp a st).placed.length ∧
      (loopStep wp a st).placed.length ≤ st.placed.length + 1 := by
  rcases loopStep_placed wp a st with h | ⟨f, hff, hnew, h⟩ <;> rw [h]
  · omega
  · rw [place_placed, List.length_append]
    simp

theorem placeLoop_le12 (wp : List String) (fuel a : Nat) (st : GenState)
    (h : st.placed.length ≤ 12) : (placeLoop wp fuel a st).placed.length ≤ 12 := by
  induction fuel generalizing a st with
  | zero => exact h
  | succ n ih =>
      unfold placeLoop
      by_cases hlt : st.placed.length < 12
      · rw [if_pos hlt]
        refine ih (a + 1) _ ?_
        have := (loopStep_length wp a st).2
        omega
      · rw [if_neg hlt]
        exact h

theorem placeLoop_ge (wp : List String) (fuel a : Nat) (st : GenState) :
    st.placed.length ≤ (placeLoop wp fuel a st).placed.length := by
  induction fuel generalizing a st with
  | zero => exact Nat.le_refl _
  | succ n ih =>
      unfold placeLoop
      by_cases hlt : st.placed.length < 12
      · rw [if_pos hlt]
        have h1 := (loopStep_length wp a st).1
        have h2 := ih (a + 1) (loopStep wp a st)
        omega
      · rw [if_neg hlt]

theorem placeLoop_stop (wp : List String) (fuel a : Nat) (st : GenState)
    (h : 12 ≤ st.placed.length) : placeLoop wp fuel a st = st := by
  cases fuel with
  | zero => rfl
  | succ n =>
      unfold placeLoop
      rw [if_neg (by omega)]

/-! ### Bounding-box folds -/

theorem foldMinI_go (l : List Int) (m : Int) :
    ∃ r, l.foldl (fun acc v => match acc with | none => some v | some m => some (min m v))
        (some m) = some r ∧ (r = m ∨ r ∈ l) ∧ r ≤ m ∧ ∀ x ∈ l, r ≤ x := by
  induction l generalizing m with
  | nil => exact ⟨m, rfl, Or.inl rfl, le_refl m, by simp⟩
  | cons v rest ih =>
      obtain ⟨r, h1, h2, h3, h4⟩ := ih (min m v)
      refine ⟨r, h1, ?_, h3.trans (min_le_left m v), ?_⟩
      · rcases h2 with h | h
        · rcases min_choice m v with hm | hm
          · left; rw [h, hm]
          · right; rw [h, hm]; simp
        · right; simp [h]
      · intro x hx
        rcases List.mem_cons.mp hx with h | hx
        · rw [h]
          exact h3.trans (min_le_right m v)
        · exact h4 x hx

theorem foldMinI_spec (l : List Int) (hl : l ≠ []) :
    ∃ r, foldMinI l = some r ∧ r ∈ l ∧ ∀ x ∈ l, r ≤ x := by
  cases l with
  | nil => exact absurd rfl hl
  | cons v rest =>
      unfold foldMinI
      rw [List.foldl_cons]
      obtain ⟨r, h1, h2, h3, h4⟩ := foldMinI_go rest v
      refine ⟨r, h1, ?_, ?_⟩
      · rcases h2 with h | h
        · simp [h]
        · simp [h]
      · intro x hx
        rcases List.mem_cons.mp hx with rfl | hx
        · exact h3
        · exact h4 x hx

theorem foldMaxI_go (l : List Int) (m : Int) :
    ∃ r, l.foldl (fun acc v => match acc with | none => some v | some m => some (max m v))
        (some m) = some r ∧ (r = m ∨ r ∈ l) ∧ m ≤ r ∧ ∀ x ∈ l, x ≤ r := by
  induction l generalizing m with
  | nil => exact ⟨m, rfl, Or.inl rfl, le_refl m, by simp⟩
  | cons v rest ih =>
      obtain ⟨r, h1, h2, h3, h4⟩ := ih (max m v)
      refine ⟨r, h1, ?_, (le_max_left m v).trans h3, ?_⟩
      · rcases h2 with h | h
        · rcases max_choice m v with hm | hm
          · left; rw [h, hm]
          · right; rw [h, hm]; simp
        · right; simp [h]
      · intro x hx
        rcases List.mem_cons.mp hx with h | hx
        · rw [h]
          exact (le_max_right m v).trans h3
        · exact h4 x hx

theorem foldMaxI_spec (l : List Int) (hl : l ≠ []) :
    ∃ r, foldMaxI l = some r ∧ r ∈ l ∧ ∀ x ∈ l, x ≤ r := by
  cases l with
  | nil => exact absurd rfl hl
  | cons v rest =>
      unfold foldMaxI
      rw [List.foldl_cons]
      obtain ⟨r, h1, h2, h3, h4⟩ := foldMaxI_go rest v
      refine ⟨r, h1, ?_, ?_⟩
      · rcases h2 with h | h
        · simp [h]
        · simp [h]
      · intro x hx
        rcases List.mem_cons.mp hx with rfl | hx
        · exact h3
        · exact h4 x hx

/-! ### Reading off the stages of `generateLevel` -/

theorem assemble_placedWords (rng : Rng) (root : String) (stF : GenState) :
    (assemble rng root stF).placedWords =
      stF.placed.map (fun p =>
        (⟨p.word, p.x - (foldMinI (stF.placed.map (fun p => p.x))).getD 0,
          p.y - (foldMinI (stF.placed.map (fun p => p.y))).getD 0,
          p.direction⟩ : PlacedWord)) := rfl

theorem assemble_rootLetters (rng : Rng) (root : String) (stF : GenState) :
    (assemble rng root stF).rootLetters = sig root := rfl

theorem assemble_gridWidth (rng : Rng) (root : String) (stF : GenState) :
    (assemble rng root stF).gridWidth =
      (foldMaxI (stF.placed.map endX)).getD 0 -
        (foldMinI (stF.placed.map (fun p => p.x))).getD 0 + 1 := rfl

theorem assemble_gridHeight (rng : Rng) (root : String) (stF : GenState) :
    (assemble rng root stF).gridHeight =
      (foldMaxI (stF.placed.map endY)).getD 0 -
        (foldMinI (stF.placed.map (fun p => p.y))).getD 0 + 1 := rfl

theorem assemble_displayLetters (rng : Rng) (root : String) (stF : GenState) :
    (assemble rng root stF).displayLetters =
      (root.toList.map Char.toUpper).insertionSort (fun a b => rng.charCmp a b = true) := rfl

theorem generateLevel_some (eng : Engine) (rng : Rng) (L : Nat) (ld : LevelData)
    (h : generateLevel eng rng L = some ld) :
    rankPool rng (computePool eng.clusters (sig (chosenRoot eng rng L))) ≠ [] ∧
      ld = assemble rng (chosenRoot eng rng L)
        (runLayout (rankPool rng (computePool eng.clusters (sig (chosenRoot eng rng L))))
          (chosenRoot eng rng L)) := by
  simp only [generateLevel] at h
  by_cases he :
      (rankPool rng (computePool eng.clusters (sig (chosenRoot eng rng L)))).isEmpty = true
  · rw [if_pos he] at h
    exact absurd h (by simp)
  · rw [if_neg he] at h
    constructor
    · intro hnil
      exact he (by rw [hnil]; rfl)
    · injection h with h1
      exact h1.symm

/-! ### Pool membership and ranking permutation -/

theorem rankPool_perm (rng : Rng) (pool : List String) : (rankPool rng pool).Perm pool := by
  unfold rankPool
  have h1 := List.perm_insertionSort (fun a b : String × Rat => b.2 ≤ a.2)
    (pool.enum.map (fun iw => (iw.2, rng.scores iw.1)))
  have h2 := h1.map (fun p : String × Rat => p.1)
  refine h2.trans ?_
  rw [List.map_map]
  rw [show ((fun p : String × Rat => p.1) ∘ (fun iw : Nat × String => (iw.2, rng.scores iw.1)))
      = fun iw : Nat × String => iw.2 from rfl]
  rw [show (fun iw : Nat × String => iw.2) = Prod.snd from rfl]
  rw [List.enum_map_snd]

theorem computePool_go (clusters : List (String × List String)) (rootSorted : String)
    (acc : List String) (w : String) :
    (w ∈ clusters.foldl
        (fun pool kv => if isSubset kv.1 rootSorted then pool ++ kv.2 else pool) acc) ↔
      (w ∈ acc ∨ ∃ kv, kv ∈ clusters ∧ isSubset kv.1 rootSorted = true ∧ w ∈ kv.2) := by
  induction clusters generalizing acc with
  | nil => simp
  | cons kv rest ih =>
      rw [List.foldl_cons]
      by_cases hs : isSubset kv.1 rootSorted = true
      · rw [if_pos hs, ih]
        constructor
        · rintro (h | h)
          · rcases List.mem_append.mp h with h | h
            · exact Or.inl h
            · exact Or.inr ⟨kv, List.mem_cons_self _ _, hs, h⟩
          · obtain ⟨kv2, h1, h2, h3⟩ := h
            exact Or.inr ⟨kv2, List.mem_cons_of_mem _ h1, h2, h3⟩
        · rintro (h | h)
          · exact Or.inl (List.mem_append_left _ h)
          · obtain ⟨kv2, h1, h2, h3⟩ := h
            rcases List.mem_cons.mp h1 with h1 | h1
            · subst h1
              exact Or.inl (List.mem_append_right _ h3)
            · exact Or.inr ⟨kv2, h1, h2, h3⟩
      · rw [if_neg hs, ih]
        constructor
        · rintro (h | h)
          · exact Or.inl h
          · obtain ⟨kv2, h1, h2, h3⟩ := h
            exact Or.inr ⟨kv2, List.mem_cons_of_mem _ h1, h2, h3⟩
        · rintro (h | h)
          · exact Or.inl h
          · obtain ⟨kv2, h1, h2, h3⟩ := h
            rcases List.mem_cons.mp h1 with h1 | h1
            · subst h1
              exact absurd h2 hs
            · exact Or.inr ⟨kv2, h1, h2, h3⟩

theorem computePool_mem (clusters : List (String × List String)) (rootSorted : String)
    (w : String) :
    w ∈ computePool clusters rootSorted ↔
      ∃ kv, kv ∈ clusters ∧ isSubset kv.1 rootSorted = true ∧ w ∈ kv.2 := by
  unfold computePool
  rw [computePool_go]
  simp

theorem firstWordOf_mem (wp : List String) (hwp : wp ≠ []) (root : String) :
    firstWordOf wp root ∈ wp := by
  unfold firstWordOf jsOr
  have h0 : wp.getD 0 "" ∈ wp := by
    have hlen : 0 < wp.length := List.length_pos.mpr hwp
    rw [List.getD_eq_getElem?_getD, List.getElem?_eq_getElem hlen]
    simp
  cases hf : wp.find? (fun w => w.length == root.length) with
  | none =>
      simp only [Option.getD_none]
      simpa using h0
  | some w =>
      simp only [Option.getD_some]
      by_cases hw : w = ""
      · rw [if_pos hw]
        exact h0
      · rw [if_neg hw]
        exact List.mem_of_find?_eq_some hf

theorem runLayout_inv (wp : List String) (hwp : wp ≠ []) (root : String) :
    LoopInv (runLayout wp root) ∧ (∀ p ∈ (runLayout wp root).placed, p.word ∈ wp) ∧
      1 ≤ (runLayout wp root).placed.length ∧ (runLayout wp root).placed.length ≤ 12 := by
  unfold runLayout
  have hseed := inv_seed (firstWordOf wp root)
  have hseedmem :
      ∀ p ∈ (place st0 (firstWordOf wp root) 0 0 Dir.horizontal).placed, p.word ∈ wp := by
    intro p hp
    rw [place_placed] at hp
    simp only [st0, List.nil_append, List.mem_singleton] at hp
    subst hp
    exact firstWordOf_mem wp hwp root
  obtain ⟨h1, h2⟩ := placeLoop_inv wp hwp (wp.length * 10) 0 _ hseed hseedmem
  refine ⟨h1, h2, ?_, ?_⟩
  · have hge := placeLoop_ge wp (wp.length * 10) 0
      (place st0 (firstWordOf wp root) 0 0 Dir.horizontal)
    have hlen1 : (place st0 (firstWordOf wp root) 0 0 Dir.horizontal).placed.length = 1 := by
      rw [place_placed]
      simp [st0]
    omega
  · refine placeLoop_le12 wp _ _ _ ?_
    rw [place_placed]
    simp [st0]

/-! ### Translating placed words to the origin -/

theorem transP_cellAt (p : PlacedWord) (mx my : Int) (i : Nat) :
    cellAt ⟨p.word, p.x - mx, p.y - my, p.direction⟩ i =
      ((cellAt p i).1 - mx, (cellAt p i).2 - my) := by
  obtain ⟨w, px, py, d⟩ := p
  cases d <;> simp only [cellAt, cellAtXY, Prod.mk.injEq] <;> constructor <;> ring_nf

theorem transP_covers (p : PlacedWord) (mx my : Int) (c : Int × Int) :
    coversB ⟨p.word, p.x - mx, p.y - my, p.direction⟩ c = true ↔
      coversB p (c.1 + mx, c.2 + my) = true := by
  rw [coversB_iff, coversB_iff]
  constructor
  · rintro ⟨i, hi, hc⟩
    refine ⟨i, hi, ?_⟩
    rw [transP_cellAt] at hc
    obtain ⟨ca, cb⟩ := c
    simp only [Prod.mk.injEq] at hc
    obtain ⟨ha, hb⟩ := hc
    rw [Prod.ext_iff]
    constructor <;> omega
  · rintro ⟨i, hi, hc⟩
    refine ⟨i, hi, ?_⟩
    rw [transP_cellAt, hc]
    obtain ⟨ca, cb⟩ := c
    simp only [Prod.mk.injEq]
    constructor <;> ring_nf

theorem transP_charAt (p : PlacedWord) (mx my : Int) (c : Int × Int) :
    charAtC ⟨p.word, p.x - mx, p.y - my, p.direction⟩ c =
      charAtC p (c.1 + mx, c.2 + my) := by
  obtain ⟨w, px, py, d⟩ := p
  cases d
  · show w.toList.getD (c.1 - (px - mx)).toNat ' ' = w.toList.getD (c.1 + mx - px).toNat ' '
    have h : c.1 - (px - mx) = c.1 + mx - px := by ring
    rw [h]
  · show w.toList.getD (c.2 - (py - my)).toNat ' ' = w.toList.getD (c.2 + my - py).toNat ' '
    have h : c.2 - (py - my) = c.2 + my - py := by ring
    rw [h]

/-! ### Coordinates of covered cells -/

theorem covers_coord (p : PlacedWord) (c : Int × Int) (hc : coversB p c = true) :
    p.x ≤ c.1 ∧ c.1 ≤ endX p ∧ p.y ≤ c.2 ∧ c.2 ≤ endY p := by
  obtain ⟨i, hi, he⟩ := (coversB_iff _ _).mp hc
  obtain ⟨w, px, py, d⟩ := p
  obtain ⟨ca, cb⟩ := c
  cases d <;>
    simp only [cellAt, cellAtXY, endX, endY, Prod.mk.injEq] at he hi ⊢ <;>
    omega

theorem string_ne_empty_length (w : String) (hw : w ≠ "") : 0 < w.length := by
  rw [string_length_toList]
  cases hww : w.toList with
  | nil =>
      exfalso
      apply hw
      have : w = String.mk w.toList := rfl
      rw [this, hww]
  | cons a l => simp

theorem covers_anchor (p : PlacedWord) (hw : p.word ≠ "") :
    coversB p (p.x, p.y) = true := by
  have hlen : 0 < p.word.length := string_ne_empty_length _ hw
  refine (coversB_iff _ _).mpr ⟨0, hlen, ?_⟩
  obtain ⟨w, px, py, d⟩ := p
  cases d <;> simp [cellAt, cellAtXY]

theorem covers_end (p : PlacedWord) (hw : p.word ≠ "") :
    coversB p (endX p, endY p) = true := by
  have hlen : 0 < p.word.length := string_ne_empty_length _ hw
  refine (coversB_iff _ _).mpr ⟨p.word.length - 1, by omega, ?_⟩
  obtain ⟨w, px, py, d⟩ := p
  simp only [String.length, String.toList] at hlen
  cases d <;>
    simp only [cellAt, cellAtXY, endX, endY, Prod.mk.injEq, String.length, String.toList,
      and_true, true_and] <;>
    omega

/-- Two perpendicular runs share at most one cell. -/
theorem cross_unique_cell (p q : PlacedWord) (hd : p.direction ≠ q.direction)
    (c c2 : Int × Int) (hp1 : coversB p c = true) (hq1 : coversB q c = true)
    (hp2 : coversB p c2 = true) (hq2 : coversB q c2 = true) : c2 = c := by
  obtain ⟨i1, hli1, e1⟩ := (coversB_iff _ _).mp hp1
  obtain ⟨j1, hlj1, f1⟩ := (coversB_iff _ _).mp hq1
  obtain ⟨i2, hli2, e2⟩ := (coversB_iff _ _).mp hp2
  obtain ⟨j2, hlj2, f2⟩ := (coversB_iff _ _).mp hq2
  obtain ⟨wp0, px, py, dp⟩ := p
  obtain ⟨wq0, qx, qy, dq⟩ := q
  obtain ⟨ca, cb⟩ := c
  obtain ⟨c2a, c2b⟩ := c2
  cases dp <;> cases dq
  · exact absurd rfl hd
  · simp only [cellAt, cellAtXY, Prod.mk.injEq] at e1 f1 e2 f2 ⊢
    omega
  · simp only [cellAt, cellAtXY, Prod.mk.injEq] at e1 f1 e2 f2 ⊢
    omega
  · exact absurd rfl hd

/-- The crossing facts survive translation to the normalized coordinates. -/
theorem crossing_of_inv (stF : GenState) (hInv : LoopInv stF) (mx my : Int) :
    ∀ p ∈ stF.placed.map (fun p =>
        (⟨p.word, p.x - mx, p.y - my, p.direction⟩ : PlacedWord)),
    ∀ q ∈ stF.placed.map (fun p =>
        (⟨p.word, p.x - mx, p.y - my, p.direction⟩ : PlacedWord)),
      p ≠ q → ∀ c : Int × Int, coversB p c = true → coversB q c = true →
      charAtC p c = charAtC q c ∧
      ((p.direction = Dir.horizontal ∧ q.direction = Dir.vertical) ∨
        (p.direction = Dir.vertical ∧ q.direction = Dir.horizontal)) ∧
      (∀ r ∈ stF.placed.map (fun p =>
          (⟨p.word, p.x - mx, p.y - my, p.direction⟩ : PlacedWord)),
        coversB r c = true → r = p ∨ r = q) ∧
      (∀ c2 : Int × Int, coversB p c2 = true → coversB q c2 = true → c2 = c) := by
  intro pt hp qt hq hne c hc1 hc2
  obtain ⟨p0, hp0, hpe⟩ := List.mem_map.mp hp
  obtain ⟨q0, hq0, hqe⟩ := List.mem_map.mp hq
  subst hpe
  subst hqe
  have hpq0 : p0 ≠ q0 := by
    intro h
    exact hne (by rw [h])
  have hc1' : coversB p0 (c.1 + mx, c.2 + my) = true := (transP_covers p0 mx my c).mp hc1
  have hc2' : coversB q0 (c.1 + mx, c.2 + my) = true := (transP_covers q0 mx my c).mp hc2
  obtain ⟨hdir, hchar⟩ := hInv.cross p0 hp0 q0 hq0 hpq0 _ hc1' hc2'
  refine ⟨?_, ?_, ?_, ?_⟩
  · rw [transP_charAt, transP_charAt]
    exact hchar
  · cases hd0 : p0.direction <;> cases hd1 : q0.direction
    · rw [hd0, hd1] at hdir
      exact absurd rfl hdir
    · exact Or.inl ⟨rfl, rfl⟩
    · exact Or.inr ⟨rfl, rfl⟩
    · rw [hd0, hd1] at hdir
      exact absurd rfl hdir
  · intro rt hr hcr
    obtain ⟨r0, hr0, hre⟩ := List.mem_map.mp hr
    subst hre
    have hcr' : coversB r0 (c.1 + mx, c.2 + my) = true := (transP_covers r0 mx my c).mp hcr
    have h2 := hInv.two (c.1 + mx, c.2 + my)
    have hmemf : ∀ s, s ∈ stF.placed → coversB s (c.1 + mx, c.2 + my) = true →
        s ∈ coveredBy stF (c.1 + mx, c.2 + my) := by
      intro s hsm hs
      exact List.mem_filter.mpr ⟨hsm, hs⟩
    rcases mem_of_card_two (coveredBy stF (c.1 + mx, c.2 + my)) h2 p0 q0 r0
        (hmemf p0 hp0 hc1') (hmemf q0 hq0 hc2') (hmemf r0 hr0 hcr') hpq0 with h | h
    · exact Or.inl (by rw [h])
    · exact Or.inr (by rw [h])
  · intro c2 hc21 hc22
    refine cross_unique_cell _ _ ?_ c c2 hc1 hc2 hc21 hc22
    intro h
    exact hdir h


/-! ### Bucket occurrence counting -/

theorem mapPush_occ (m : List (String × List String)) (k w v : String)
    (hk : mapHas m k = true) :
    bucketOccOf (mapPush m k w) v = bucketOccOf m v + List.count v [w] := by
  induction m with
  | nil => simp [mapHas] at hk
  | cons kv rest ih =>
      by_cases h : kv.1 = k
      · simp only [mapPush, if_pos h, bucketOccOf, List.map_cons, List.sum_cons]
        rw [List.count_append]
        omega
      · simp only [mapPush, if_neg h, bucketOccOf, List.map_cons, List.sum_cons]
        have hk2 : mapHas rest k = true := by
          simp only [mapHas, List.any_cons, Bool.or_eq_true, beq_iff_eq] at hk
          rcases hk with hk | hk
          · exact absurd hk h
          · exact hk
        have := ih hk2
        simp only [bucketOccOf] at this
        omega

theorem clusterAdd_occ (m : List (String × List String)) (w v : String) :
    bucketOccOf (clusterAdd m w) v = bucketOccOf m v + List.count v [w] := by
  simp only [clusterAdd]
  by_cases h : mapHas m (sig w) = true
  · rw [if_pos h]
    exact mapPush_occ m (sig w) w v h
  · rw [if_neg h]
    have h2 : mapHas (m ++ [(sig w, [])]) (sig w) = true := by
      simp [mapHas]
    rw [mapPush_occ _ _ _ _ h2]
    simp [bucketOccOf, List.sum_append]

theorem foldl_clusterAdd_occ (ws : List String) (m : List (String × List String))
    (v : String) :
    bucketOccOf (ws.foldl clusterAdd m) v = bucketOccOf m v + List.count v ws := by
  induction ws generalizing m with
  | nil => simp
  | cons w rest ih =>
      rw [List.foldl_cons, ih, clusterAdd_occ]
      simp only [List.count_cons, List.count_nil]
      by_cases hwv : (w == v) = true
      · simp only [if_pos hwv]
        omega
      · simp only [if_neg hwv]
        omega

/-! ### Bucket keys are signatures -/

theorem mapPush_keysOk (m : List (String × List String)) (k w : String)
    (hkw : k = sig w) (h : keysOk m) : keysOk (mapPush m k w) := by
  induction m with
  | nil =>
      intro kv hkv
      simp [mapPush] at hkv
  | cons kv rest ih =>
      intro kv2 hkv2 v hv
      by_cases hh : kv.1 = k
      · simp only [mapPush, if_pos hh] at hkv2
        rcases List.mem_cons.mp hkv2 with h2 | h2
        · subst h2
          rcases List.mem_append.mp hv with hv | hv
          · exact h kv (List.mem_cons_self _ _) v hv
          · rw [List.mem_singleton] at hv
            subst hv
            rw [hh, hkw]
        · exact h kv2 (List.mem_cons_of_mem _ h2) v hv
      · simp only [mapPush, if_neg hh] at hkv2
        rcases List.mem_cons.mp hkv2 with h2 | h2
        · subst h2
          exact h kv2 (List.mem_cons_self _ _) v hv
        · exact ih (fun kv3 hkv3 => h kv3 (List.mem_cons_of_mem _ hkv3)) kv2 h2 v hv

theorem clusterAdd_keysOk (m : List (String × List String)) (w : String)
    (h : keysOk m) : keysOk (clusterAdd m w) := by
  simp only [clusterAdd]
  by_cases hh : mapHas m (sig w) = true
  · rw [if_pos hh]
    exact mapPush_keysOk m (sig w) w rfl h
  · rw [if_neg hh]
    refine mapPush_keysOk _ (sig w) w rfl ?_
    intro kv hkv v hv
    rcases List.mem_append.mp hkv with hkv | hkv
    · exact h kv hkv v hv
    · rw [List.mem_singleton] at hkv
      subst hkv
      simp at hv

theorem foldl_clusterAdd_keysOk (ws : List String) (m : List (String × List String))
    (h : keysOk m) : keysOk (ws.foldl clusterAdd m) := by
  induction ws generalizing m with
  | nil => exact h
  | cons w rest ih => exact ih _ (clusterAdd_keysOk m w h)

/-! ### Dedup -/

theorem jsDedup_nodup_go (l : List String) (acc : List String) (hacc : acc.Nodup) :
    (l.foldl (fun acc w => if acc.contains w then acc else acc ++ [w]) acc).Nodup := by
  induction l generalizing acc with
  | nil => exact hacc
  | cons w rest ih =>
      rw [List.foldl_cons]
      by_cases h : acc.contains w = true
      · rw [if_pos h]
        exact ih acc hacc
      · rw [if_neg h]
        refine ih _ ?_
        rw [(List.perm_append_singleton _ _).nodup_iff, List.nodup_cons]
        refine ⟨?_, hacc⟩
        intro hmem
        exact h (by simpa using hmem)

theorem jsDedup_nodup (l : List String) : (jsDedup l).Nodup :=
  jsDedup_nodup_go l [] (by simp)

/-! ### Exactly-once cluster membership for a freshly built index -/

theorem clusterExactlyOnce_of_nodup (ws : List String) (hnd : ws.Nodup) :
    ∀ w ∈ ws, bucketOccOf (ws.foldl clusterAdd []) w = 1 ∧
      ∀ kv ∈ ws.foldl clusterAdd [], w ∈ kv.2 → kv.1 = sig w := by
  intro w hw
  constructor
  · rw [foldl_clusterAdd_occ]
    have h0 : bucketOccOf [] w = 0 := rfl
    rw [h0, List.count_eq_one_of_mem hnd hw]
  · intro kv hkv hwkv
    refine foldl_clusterAdd_keysOk ws [] ?_ kv hkv w hwkv
    intro kv2 hkv2
    simp at hkv2

theorem ldC_spec : generateLevel engC rngC 4 = some ldC := by decide

/-! ### Claim theorems -/

/-- C2: for all strings `small` and `big`, `isSubset small big` returns true
iff every character of `small` occurs in `big` at least as many times as in
`small` (multiset containment). -/
theorem c2_isSubset_multiset (small big : String) :
    isSubset small big = true ↔
      ∀ c : Char, small.toList.count c ≤ big.toList.count c :=
  isSubset_iff_counts small big

/-- C3 counterexample: with dictionary `["water"]` and target length 4 there
are no words of length 4, and the engine's fallback root list is the length-5
words (`["water"]`), not the length-3 words (the claim's L−1 = 3 list is
empty). -/
theorem c3_counterexample :
    (["water"].filter (fun w => w.length == 4)) = [] ∧
    rootWordsAfterFallback ["water"] 4 = ["water"] ∧
    rootWordsAfterFallback ["water"] 4 ≠ ["water"].filter (fun w => w.length == 3) := by
  decide

/-- C3 (amended): if no words of the requested target length exist, the root
word list falls back to the words of the constant length 5 (which is L−1 only
for the default target 6), before picking the root word. -/
theorem c3_fallback_amended (dict : List String) (L : Nat)
    (h : dict.filter (fun w => w.length == L) = []) :
    rootWordsAfterFallback dict L = dict.filter (fun w => w.length == 5) := by
  simp only [rootWordsAfterFallback]
  rw [h]
  rfl

theorem c3_witness :
    rootWordsAfterFallback ["water"] 4 = ["water"].filter (fun w => w.length == 5) :=
  c3_fallback_amended ["water"] 4 (by decide)

/-- C4: whenever the derived candidate pool is non-empty, `generateLevel`
returns a LevelData (no runtime error) with at least one placed word. -/
theorem c4_pool_nonempty_safe (eng : Engine) (rng : Rng) (L : Nat)
    (h : computePool eng.clusters (sig (chosenRoot eng rng L)) ≠ []) :
    (generateLevel eng rng L).isSome = true ∧
      1 ≤ ((generateLevel eng rng L).map (fun ld => ld.placedWords.length)).getD 0 := by
  have hwp : rankPool rng (computePool eng.clusters (sig (chosenRoot eng rng L))) ≠ [] := by
    intro hnil
    have hlen :=
      (rankPool_perm rng (computePool eng.clusters (sig (chosenRoot eng rng L)))).length_eq
    rw [hnil] at hlen
    exact h (List.length_eq_zero.mp (by simpa using hlen.symm))
  have hne2 :
      ¬ ((rankPool rng (computePool eng.clusters (sig (chosenRoot eng rng L)))).isEmpty
        = true) := by
    intro hemp
    exact hwp (List.isEmpty_iff.mp hemp)
  have hgl : generateLevel eng rng L =
      some (assemble rng (chosenRoot eng rng L)
        (runLayout (rankPool rng (computePool eng.clusters (sig (chosenRoot eng rng L))))
          (chosenRoot eng rng L))) := by
    simp only [generateLevel]
    rw [if_neg hne2]
  rw [hgl]
  refine ⟨rfl, ?_⟩
  simp only [Option.map_some', Option.getD_some]
  rw [assemble_placedWords, List.length_map]
  exact (runLayout_inv _ hwp _).2.2.1

theorem c4_witness :
    (generateLevel engC rngC 4).isSome = true ∧
      1 ≤ ((generateLevel engC rngC 4).map (fun ld => ld.placedWords.length)).getD 0 :=
  c4_pool_nonempty_safe engC rngC 4 (by decide)

/-- C5: the placement loop stops as soon as 12 words are placed (and its fuel
models the `attempts < pool.length * 10` bound, so it always terminates), and
every returned LevelData has at most 12 placed words; fewer than 12 is a
normal `some` return. -/
theorem c5_termination_bound :
    (∀ (wp : List String) (fuel a : Nat) (st : GenState),
      12 ≤ st.placed.length → placeLoop wp fuel a st = st) ∧
    (∀ (eng : Engine) (rng : Rng) (L : Nat),
      ((generateLevel eng rng L).map (fun ld => ld.placedWords.length)).getD 0 ≤ 12) := by
  constructor
  · exact placeLoop_stop
  · intro eng rng L
    cases hg : generateLevel eng rng L with
    | none => simp
    | some ld =>
        obtain ⟨hne, hld⟩ := generateLevel_some eng rng L ld hg
        simp only [Option.map_some', Option.getD_some]
        rw [hld, assemble_placedWords, List.length_map]
        exact (runLayout_inv _ hne _).2.2.2

theorem c5_witness :
    placeLoop [] 1 0 stTwelve = stTwelve ∧
      ((generateLevel engC rngC 4).map (fun ld => ld.placedWords.length)).getD 0 ≤ 12 :=
  ⟨c5_termination_bound.1 [] 1 0 stTwelve (by decide),
   c5_termination_bound.2 engC rngC 4⟩

/-- C10: when the derived candidate pool is empty, `generateLevel` does not
return a LevelData: the seed word is `undefined` and `place` dereferences it,
modelled here by the `none` result. -/
theorem c10_empty_pool_error (eng : Engine) (rng : Rng) (L : Nat)
    (h : computePool eng.clusters (sig (chosenRoot eng rng L)) = []) :
    generateLevel eng rng L = none := by
  have hwp : rankPool rng (computePool eng.clusters (sig (chosenRoot eng rng L))) = [] := by
    rw [h]
    rfl
  simp only [generateLevel]
  rw [hwp]
  rfl

theorem c10_witness : generateLevel engM rngC 4 = none :=
  c10_empty_pool_error engM rngC 4 (by decide)

/-- C7: (a) a word enters the candidate pool iff it sits in some cluster
bucket and its signature passes the `isSubset` test against the root
signature (the bucket keys being signatures); (b) every placed word of a
returned LevelData has a signature that is a multiset-subset of the root
signature (`rootLetters`). -/
theorem c7_signature_subset (eng : Engine) (rng : Rng) (L : Nat)
    (hwf : ∀ kv ∈ eng.clusters, ∀ w ∈ kv.2, kv.1 = sig w) :
    (∀ rootSorted w, w ∈ computePool eng.clusters rootSorted ↔
      ((∃ kv, kv ∈ eng.clusters ∧ w ∈ kv.2) ∧ isSubset (sig w) rootSorted = true)) ∧
    (∀ ld, generateLevel eng rng L = some ld →
      ∀ p ∈ ld.placedWords, isSubset (sig p.word) ld.rootLetters = true) := by
  have hpool : ∀ rootSorted w, w ∈ computePool eng.clusters rootSorted ↔
      ((∃ kv, kv ∈ eng.clusters ∧ w ∈ kv.2) ∧ isSubset (sig w) rootSorted = true) := by
    intro rootSorted w
    rw [computePool_mem]
    constructor
    · rintro ⟨kv, h1, h2, h3⟩
      have hk := hwf kv h1 w h3
      rw [hk] at h2
      exact ⟨⟨kv, h1, h3⟩, h2⟩
    · rintro ⟨⟨kv, h1, h3⟩, h2⟩
      refine ⟨kv, h1, ?_, h3⟩
      rw [hwf kv h1 w h3]
      exact h2
  refine ⟨hpool, ?_⟩
  intro ld hg p hp
  obtain ⟨hne, hld⟩ := generateLevel_some eng rng L ld hg
  obtain ⟨hInv, hmemw, hc1, hc2⟩ := runLayout_inv _ hne (chosenRoot eng rng L)
  rw [hld, assemble_rootLetters]
  rw [hld, assemble_placedWords] at hp
  obtain ⟨p0, hp0, hpe⟩ := List.mem_map.mp hp
  subst hpe
  have hw : p0.word ∈
      rankPool rng (computePool eng.clusters (sig (chosenRoot eng rng L))) := hmemw p0 hp0
  have hwpool : p0.word ∈ computePool eng.clusters (sig (chosenRoot eng rng L)) :=
    (rankPool_perm rng _).mem_iff.mp hw
  exact ((hpool _ p0.word).mp hwpool).2

theorem c7_witness : isSubset (sig "star") ldC.rootLetters = true :=
  (c7_signature_subset engC rngC 4 (by decide)).2 ldC ldC_spec
    ⟨"star", 0, 3, Dir.horizontal⟩ (by decide)

/-- C8 counterexample: the display letters of a generated level are NOT a
permutation of the root signature's characters as a multiset: the code
uppercases the root before shuffling, so the character multisets differ in
case. -/
theorem c8_counterexample :
    ((generateLevel engC rngC 4).map
      (fun ld => decide ((ld.displayLetters : Multiset Char) =
        (ld.rootLetters.toList : Multiset Char)))).getD true = false := by
  decide

/-- C8 (amended): the display letters of every returned LevelData are a
permutation of the UPPERCASED root letters (equivalently, of the uppercased
root-signature characters). -/
theorem c8_display_perm_amended (eng : Engine) (rng : Rng) (L : Nat) (ld : LevelData)
    (h : generateLevel eng rng L = some ld) :
    ld.displayLetters.Perm (ld.rootLetters.toList.map Char.toUpper) := by
  obtain ⟨hne, hld⟩ := generateLevel_some eng rng L ld h
  rw [hld, assemble_displayLetters, assemble_rootLetters]
  have h1 : (((chosenRoot eng rng L).toList.map Char.toUpper).insertionSort
      (fun a b => rng.charCmp a b = true)).Perm
      ((chosenRoot eng rng L).toList.map Char.toUpper) :=
    List.perm_insertionSort _ _
  have h2 : (sig (chosenRoot eng rng L)).toList.Perm (chosenRoot eng rng L).toList :=
    sig_perm _
  exact h1.trans (h2.map Char.toUpper).symm

theorem c8_witness : ldC.displayLetters.Perm (ldC.rootLetters.toList.map Char.toUpper) :=
  c8_display_perm_amended engC rngC 4 ldC ldC_spec

set_option maxRecDepth 8000 in
/-- C9 counterexample: two consecutive fallback-path `init` calls leave
"rust" (a word of the resulting dictionary) TWICE in its cluster bucket,
because the catch path does not clear the clusters map; so the claim fails
for this sequence of init calls. -/
theorem c9_counterexample :
    "rust" ∈ (initEngine (initEngine freshEngine none) none).dictionary ∧
    bucketOcc (initEngine (initEngine freshEngine none) none) "rust" = 2 := by
  decide

/-- C9 (amended): after any single successful init (from any prior state) and
after a fallback init from the fresh state, every dictionary word appears in
exactly one cluster bucket, exactly once, keyed by its signature; a
successful init is idempotent (it ignores the prior state entirely). Repeated
fallback inits violate the invariant (see the counterexample) because the
catch path does not clear the clusters. -/
theorem c9_exactly_once_amended :
    (∀ (eng : Engine) (lines : List String),
      ClusterExactlyOnce (initEngine eng (some lines))) ∧
    ClusterExactlyOnce (initEngine freshEngine none) ∧
    (∀ (e1 e2 : Engine) (lines : List String),
      initEngine e1 (some lines) = initEngine e2 (some lines)) := by
  refine ⟨?_, ?_, ?_⟩
  · intro eng lines w hw
    exact clusterExactlyOnce_of_nodup
      (jsDedup ((lines.map (fun w => w.trim.toLower)).filter dictFilter ++ PRIORITY_WORDS))
      (jsDedup_nodup _) w hw
  · intro w hw
    exact clusterExactlyOnce_of_nodup FALLBACK_WORDS (by decide) w hw
  · intro e1 e2 lines
    rfl

theorem c9_witness : bucketOcc (initEngine freshEngine none) "rust" = 1 :=
  (c9_exactly_once_amended.2.1 "rust" (by decide)).1

/-- C1: in every returned LevelData, any cell covered by two distinct placed
words holds the same character for both, the two words cross perpendicular
(one horizontal, one vertical), no third placed word covers that cell, and
the two words share exactly that one cell. -/
theorem c1_cross_consistency (eng : Engine) (rng : Rng) (L : Nat) (ld : LevelData)
    (h : generateLevel eng rng L = some ld) :
    ∀ p ∈ ld.placedWords, ∀ q ∈ ld.placedWords, p ≠ q → ∀ c : Int × Int,
      coversB p c = true → coversB q c = true →
      charAtC p c = charAtC q c ∧
      ((p.direction = Dir.horizontal ∧ q.direction = Dir.vertical) ∨
        (p.direction = Dir.vertical ∧ q.direction = Dir.horizontal)) ∧
      (∀ r ∈ ld.placedWords, coversB r c = true → r = p ∨ r = q) ∧
      (∀ c2 : Int × Int, coversB p c2 = true → coversB q c2 = true → c2 = c) := by
  obtain ⟨hne, hld⟩ := generateLevel_some eng rng L ld h
  obtain ⟨hInv, hmemw, hc1, hc2⟩ := runLayout_inv _ hne (chosenRoot eng rng L)
  rw [hld, assemble_placedWords]
  exact crossing_of_inv _ hInv _ _

theorem c1_witness :
    charAtC ⟨"star", 0, 3, Dir.horizontal⟩ (0, 3) =
      charAtC ⟨"rats", 0, 0, Dir.vertical⟩ (0, 3) :=
  (c1_cross_consistency engC rngC 4 ldC ldC_spec ⟨"star", 0, 3, Dir.horizontal⟩ (by decide)
    ⟨"rats", 0, 0, Dir.vertical⟩ (by decide) (by decide) (0, 3) (by decide) (by decide)).1

/-- C6: in every returned LevelData (for an engine whose cluster buckets hold
no empty word, as any initialized dictionary guarantees), the occupied cells
after normalization all lie in `[0, gridWidth) × [0, gridHeight)`, some
occupied cell touches x = 0, some touches y = 0, and the extreme columns
`gridWidth - 1` and rows `gridHeight - 1` are occupied: the grid dimensions
are the tight bounding box of the occupied cells, with its minimum corner
translated to the origin. -/
theorem c6_bounding_box (eng : Engine) (rng : Rng) (L : Nat)
    (hwne : ∀ kv ∈ eng.clusters, ∀ w ∈ kv.2, w ≠ "")
    (ld : LevelData) (h : generateLevel eng rng L = some ld) :
    (∀ p ∈ ld.placedWords, ∀ c : Int × Int, coversB p c = true →
      0 ≤ c.1 ∧ 0 ≤ c.2 ∧ c.1 < ld.gridWidth ∧ c.2 < ld.gridHeight) ∧
    (∃ p ∈ ld.placedWords, ∃ c : Int × Int, coversB p c = true ∧ c.1 = 0) ∧
    (∃ p ∈ ld.placedWords, ∃ c : Int × Int, coversB p c = true ∧ c.2 = 0) ∧
    (∃ p ∈ ld.placedWords, ∃ c : Int × Int, coversB p c = true ∧ c.1 = ld.gridWidth - 1) ∧
    (∃ p ∈ ld.placedWords, ∃ c : Int × Int, coversB p c = true ∧ c.2 = ld.gridHeight - 1) := by
  obtain ⟨hne, hld⟩ := generateLevel_some eng rng L ld h
  set stF : GenState := runLayout
    (rankPool rng (computePool eng.clusters (sig (chosenRoot eng rng L))))
    (chosenRoot eng rng L) with hstF
  obtain ⟨hInv, hmemw, hge, hle⟩ := runLayout_inv _ hne (chosenRoot eng rng L)
  have hwords : ∀ p ∈ stF.placed, p.word ≠ "" := by
    intro p hp
    have hw := hmemw p hp
    have hwpool : p.word ∈ computePool eng.clusters (sig (chosenRoot eng rng L)) :=
      (rankPool_perm rng _).mem_iff.mp hw
    obtain ⟨kv, h1, h2, h3⟩ := (computePool_mem _ _ _).mp hwpool
    exact hwne kv h1 p.word h3
  have hplne : stF.placed ≠ [] := by
    intro hnil
    rw [hnil] at hge
    simp at hge
  obtain ⟨mx, hmx1, hmx2, hmx3⟩ :=
    foldMinI_spec (stF.placed.map (fun p => p.x)) (fun hnil => hplne (List.map_eq_nil_iff.mp hnil))
  obtain ⟨my, hmy1, hmy2, hmy3⟩ :=
    foldMinI_spec (stF.placed.map (fun p => p.y)) (fun hnil => hplne (List.map_eq_nil_iff.mp hnil))
  obtain ⟨MX, hMX1, hMX2, hMX3⟩ :=
    foldMaxI_spec (stF.placed.map endX) (fun hnil => hplne (List.map_eq_nil_iff.mp hnil))
  obtain ⟨MY, hMY1, hMY2, hMY3⟩ :=
    foldMaxI_spec (stF.placed.map endY) (fun hnil => hplne (List.map_eq_nil_iff.mp hnil))
  have hpw : ld.placedWords =
      stF.placed.map (fun p => ⟨p.word, p.x - mx, p.y - my, p.direction⟩) := by
    rw [hld, assemble_placedWords, hmx1, hmy1]
    simp only [Option.getD_some]
  have hgw : ld.gridWidth = MX - mx + 1 := by
    rw [hld, assemble_gridWidth, hmx1, hMX1]
    simp only [Option.getD_some]
  have hgh : ld.gridHeight = MY - my + 1 := by
    rw [hld, assemble_gridHeight, hmy1, hMY1]
    simp only [Option.getD_some]
  refine ⟨?_, ?_, ?_, ?_, ?_⟩
  · intro pt hpt c hc
    rw [hpw] at hpt
    obtain ⟨p0, hp0, hpe⟩ := List.mem_map.mp hpt
    subst hpe
    have hc' := (transP_covers p0 mx my c).mp hc
    obtain ⟨h1, h2, h3, h4⟩ := covers_coord p0 _ hc'
    have hxlow : mx ≤ p0.x := hmx3 _ (List.mem_map.mpr ⟨p0, hp0, rfl⟩)
    have hylow : my ≤ p0.y := hmy3 _ (List.mem_map.mpr ⟨p0, hp0, rfl⟩)
    have hxhigh : endX p0 ≤ MX := hMX3 _ (List.mem_map.mpr ⟨p0, hp0, rfl⟩)
    have hyhigh : endY p0 ≤ MY := hMY3 _ (List.mem_map.mpr ⟨p0, hp0, rfl⟩)
    rw [hgw, hgh]
    refine ⟨by omega, by omega, by omega, by omega⟩
  · obtain ⟨p0, hp0, hp0x⟩ := List.mem_map.mp hmx2
    refine ⟨⟨p0.word, p0.x - mx, p0.y - my, p0.direction⟩, ?_,
      (p0.x - mx, p0.y - my), ?_, ?_⟩
    · rw [hpw]
      exact List.mem_map.mpr ⟨p0, hp0, rfl⟩
    · rw [transP_covers]
      show coversB p0 (p0.x - mx + mx, p0.y - my + my) = true
      have e1 : p0.x - mx + mx = p0.x := by ring
      have e2 : p0.y - my + my = p0.y := by ring
      rw [e1, e2]
      exact covers_anchor p0 (hwords p0 hp0)
    · show p0.x - mx = 0
      omega
  · obtain ⟨p0, hp0, hp0y⟩ := List.mem_map.mp hmy2
    refine ⟨⟨p0.word, p0.x - mx, p0.y - my, p0.direction⟩, ?_,
      (p0.x - mx, p0.y - my), ?_, ?_⟩
    · rw [hpw]
      exact List.mem_map.mpr ⟨p0, hp0, rfl⟩
    · rw [transP_covers]
      show coversB p0 (p0.x - mx + mx, p0.y - my + my) = true
      have e1 : p0.x - mx + mx = p0.x := by ring
      have e2 : p0.y - my + my = p0.y := by ring
      rw [e1, e2]
      exact covers_anchor p0 (hwords p0 hp0)
    · show p0.y - my = 0
      omega
  · obtain ⟨p1, hp1, hp1x⟩ := List.mem_map.mp hMX2
    refine ⟨⟨p1.word, p1.x - mx, p1.y - my, p1.direction⟩, ?_,
      (endX p1 - mx, endY p1 - my), ?_, ?_⟩
    · rw [hpw]
      exact List.mem_map.mpr ⟨p1, hp1, rfl⟩
    · rw [transP_covers]
      show coversB p1 (endX p1 - mx + mx, endY p1 - my + my) = true
      have e1 : endX p1 - mx + mx = endX p1 := by ring
      have e2 : endY p1 - my + my = endY p1 := by ring
      rw [e1, e2]
      exact covers_end p1 (hwords p1 hp1)
    · show endX p1 - mx = ld.gridWidth - 1
      rw [hgw]
      omega
  · obtain ⟨p1, hp1, hp1y⟩ := List.mem_map.mp hMY2
    refine ⟨⟨p1.word, p1.x - mx, p1.y - my, p1.direction⟩, ?_,
      (endX p1 - mx, endY p1 - my), ?_, ?_⟩
    · rw [hpw]
      exact List.mem_map.mpr ⟨p1, hp1, rfl⟩
    · rw [transP_covers]
      show coversB p1 (endX p1 - mx + mx, endY p1 - my + my) = true
      have e1 : endX p1 - mx + mx = endX p1 := by ring
      have e2 : endY p1 - my + my = endY p1 := by ring
      rw [e1, e2]
      exact covers_end p1 (hwords p1 hp1)
    · show endY p1 - my = ld.gridHeight - 1
      rw [hgh]
      omega

theorem c6_witness :
    0 ≤ (0 : Int) ∧ 0 ≤ (3 : Int) ∧ (0 : Int) < ldC.gridWidth ∧ (3 : Int) < ldC.gridHeight :=
  (c6_bounding_box engC rngC 4 (by decide) ldC ldC_spec).1
    ⟨"star", 0, 3, Dir.horizontal⟩ (by decide) (0, 3) (by decide)
